import Mathlib

/-!
Shallow embedding of the memory-management and associative-container core of
`src/compartment.hpp`, together with theorems checking the specification's
claims against it.

Modelling conventions:
* `size_t`/`uint64_t` arithmetic is modelled on `Nat`; all quantities involved
  stay far below `2 ^ 64`, and the only wrap-prone operations in the source
  (`idx + 1`, offset sums) are immediately reduced `% capacity` or kept small.
* Pointers are modelled as natural-number addresses.  A fresh page obtained
  from the OS mapping primitive gets a fresh abstract address from a counter
  carried in the arena state.
* Fallible or possibly-diverging code (unbounded `while` loops, out-of-bounds
  array accesses, null-pointer dereferences) is embedded with an explicit
  fuel parameter and an `Option` result: `none` means the concrete execution
  does not terminate normally (crash or divergence).
* The keyed table is instantiated at `K = V = Nat` with a pluggable hash
  function `hash : Nat → Nat`, mirroring the pluggable `Hash<T>` trait
  (the provided `Hash<uint32_t>`/`Hash<size_t>` specializations are the
  identity).
-/

namespace Compartment

/-- Embedding of `align_to(size, align)` from the source:
`size + ((align - (size & (align - 1))) & (align - 1))`. -/
def align_to (size align : Nat) : Nat :=
  size + ((align - (size &&& (align - 1))) &&& (align - 1))

/-! ## FixedBufferAllocator

`buffer == nullptr` is modelled by the flag `has_buffer`; the buffer's base
address is modelled as address `0`, so a pointer into the buffer is just an
offset. -/

structure FixedBufferAllocator where
  has_buffer : Bool
  buffer_size : Nat
  buffer_off : Nat
deriving DecidableEq, Repr

/-- Embedding of `FixedBufferAllocator::raw_alloc`.  Returns the allocated
pointer (`none` models returning `nullptr`) and the updated allocator.
`COMT_PAGE_SIZE = 4096`, `DEFAULT_PAGE_COUNT = 5`. -/
def FixedBufferAllocator.raw_alloc (a : FixedBufferAllocator) (size : Nat) :
    Option Nat × FixedBufferAllocator :=
  let size := align_to size 8
  let a := if a.has_buffer then a else
    { has_buffer := true,
      buffer_size := align_to (max size (4096 * 5)) 4096,
      buffer_off := 0 }
  if a.buffer_size < size then (none, a)
  else if a.buffer_size - a.buffer_off < size then
    (some 0, { a with buffer_off := size })
  else
    (some a.buffer_off, { a with buffer_off := a.buffer_off + size })

/-- Embedding of `FixedBufferAllocator::raw_dealloc`:
`if (ptr == (void*)((uint8_t*)buffer + buffer_off)) buffer_off -= size;`.
Note the comparison is against the buffer base plus the *current* offset. -/
def FixedBufferAllocator.raw_dealloc (a : FixedBufferAllocator) (ptr size : Nat) :
    FixedBufferAllocator :=
  if ptr = a.buffer_off then { a with buffer_off := a.buffer_off - size } else a

/-! ## ArenaAllocator

A `Region` is `{data, size, off}`; the owning chains are Lean lists (the
`next` pointers).  `sizeof(Region)` on an LP64 machine is 32 bytes and
`align_to(sizeof(Region), sizeof(void*)) = 32`. -/

structure Region where
  data : Nat
  size : Nat
  off : Nat
deriving DecidableEq, Repr

structure ArenaAllocator where
  head : List Region
  region_pool : List Region
  ctr : Nat
deriving DecidableEq, Repr

/-- Embedding of the `while (current_region)` loop of
`ArenaAllocator::alloc_region`.  The source iterates with
`head = head->next` while testing `current_region`, which is never
reassigned, so the loop examines only the first pool region `p`; on each
failing iteration it pops `head` instead, and dereferences a null `head`
once the head chain is exhausted (modelled by `none`).  `fuel` bounds the
number of iterations; `rsize` is the already page-aligned region size and
`ctr` the fresh-page counter. -/
def allocRegionLoop (rsize : Nat) (p : Region) (rest : List Region) (ctr : Nat) :
    Nat → List Region → Option (Region × List Region × List Region × Nat)
  | 0, _ => none
  | fuel + 1, hd =>
    if 32 ≤ p.size - p.off then
      some ({ data := ctr, size := rsize, off := 0 },
            { p with off := p.off + 32 } :: rest, hd, ctr + 1)
    else
      match hd with
      | [] => none
      | _ :: tl => allocRegionLoop rsize p rest ctr fuel tl

/-- Embedding of `ArenaAllocator::alloc_region`.  Returns the new data
region's descriptor and the updated arena.  When the pool is empty the
source obtains a descriptor page through `sbrk`, maps one `COMT_PAGE_SIZE`
pool page (address `ctr`), records `off = 32` for the descriptor carved at
the start of that page, and maps the data page (address `ctr + 1`). -/
def ArenaAllocator.alloc_region (fuel : Nat) (a : ArenaAllocator) (size : Nat) :
    Option (Region × ArenaAllocator) :=
  let rsize := align_to size 4096
  match a.region_pool with
  | [] =>
    some ({ data := a.ctr + 1, size := rsize, off := 0 },
          { a with region_pool := [{ data := a.ctr, size := 4096, off := 32 }],
                   ctr := a.ctr + 2 })
  | p :: rest =>
    (allocRegionLoop rsize p rest a.ctr fuel a.head).map fun x =>
      (x.1, { head := x.2.2.1, region_pool := x.2.1, ctr := x.2.2.2 })

/-- Embedding of the first-fit scan of `ArenaAllocator::raw_alloc`:
find the first region of the chain with `size - off >= sz`, serve the
pointer `data + off` from it and bump its offset. -/
def serveLoop (sz : Nat) : List Region → Option (Nat × List Region)
  | [] => none
  | r :: rs =>
    if sz ≤ r.size - r.off then
      some (r.data + r.off, { r with off := r.off + sz } :: rs)
    else
      (serveLoop sz rs).map fun x => (x.1, r :: x.2)

/-- Embedding of `ArenaAllocator::raw_alloc`.  Aligns the size to pointer
width, first-fit scans `head`, and otherwise allocates a fresh region of the
page-aligned size through `alloc_region`, prepends it to the (possibly
modified) head chain and serves from it. -/
def ArenaAllocator.raw_alloc (fuel : Nat) (a : ArenaAllocator) (size : Nat) :
    Option (Nat × ArenaAllocator) :=
  let sz := align_to size 8
  match serveLoop sz a.head with
  | some x => some (x.1, { a with head := x.2 })
  | none =>
    (ArenaAllocator.alloc_region fuel a (align_to sz 4096)).map fun ra =>
      (ra.1.data + ra.1.off,
       { ra.2 with head := { ra.1 with off := ra.1.off + sz } :: ra.2.head })

/-- Embedding of `ArenaAllocator::free` as the list of
`(data, size)` arguments passed to `COMT_DEALLOC_PAGE`.  The source loop
`for (Region* r = head; r != nullptr; r = r->next)
  COMT_DEALLOC_PAGE(head->data, head->size);`
performs one call per chain node but always passes the *first* node's
fields. -/
def ArenaAllocator.freeCalls (a : ArenaAllocator) : List (Nat × Nat) :=
  match a.head with
  | [] => []
  | h :: _ => a.head.map fun _ => (h.data, h.size)

/-! ## Open-addressing hash table (`Table<K, V>` at `K = V = Nat`)

Parallel arrays become parallel lists.  Occupancy is bit 0 of the meta byte
(`COMT_TAB_META_OCCUPIED = 0x01`).  Array reads are embedded with `getD _ 0`;
every index the table code produces is reduced `% capacity` first and is
therefore in range whenever the lists have length `capacity` (in contrast to
the `Set` below, whose unreduced first probe index forces a guarded read).

`Table::alloc` requests uninitialized memory from the allocator and writes
no element of the three arrays, so the embedding takes the memory contents
handed back by the allocator as parameters (`Table.allocMem`).  `Table.alloc`
is the special case of all-zero memory, which is what a freshly mapped OS
page contains; the internal rehash of `put` is modelled with it. -/

structure Table where
  keys : List Nat
  values : List Nat
  meta : List Nat
  count : Nat
  capacity : Nat
deriving DecidableEq, Repr

/-- `Table::alloc` with explicit allocator-provided memory contents. -/
def Table.allocMem (keys0 values0 meta0 : List Nat) (capacity : Nat) : Table :=
  { keys := keys0, values := values0, meta := meta0, count := 0, capacity := capacity }

/-- `Table::alloc` when the allocator hands back zero-filled pages. -/
def Table.alloc (capacity : Nat) : Table :=
  Table.allocMem (List.replicate capacity 0) (List.replicate capacity 0)
    (List.replicate capacity 0) capacity

/-- `Table::load_percentage`: `(uint8_t)((double)(count * 100) / (double)capacity)`,
i.e. the truncated percentage. -/
def Table.load_percentage (t : Table) : Nat :=
  t.count * 100 / t.capacity

/-- Slot occupancy test `COMT_TAB_IS_OCCUPIED(meta[i])`. -/
def Table.occB (t : Table) (i : Nat) : Bool :=
  t.meta.getD i 0 &&& 1 == 1

/-- The probe index inspected `j` steps after the start slot for key `k`:
start is `hash(key) % capacity`, stepping is `(idx + 1) % capacity`. -/
def Table.probeIdx (hash : Nat → Nat) (t : Table) (k j : Nat) : Nat :=
  (hash k % t.capacity + j) % t.capacity

/-- Embedding of the `while (true)` insert/update loop of `Table::put`,
with `fuel` bounding the number of probed slots (`none` = divergence). -/
def Table.insertLoop (k v : Nat) : Nat → Table → Nat → Option Table
  | 0, _, _ => none
  | fuel + 1, t, idx =>
    let m := t.meta.getD idx 0
    if ¬ m &&& 1 = 1 then
      some { t with meta := t.meta.set idx (m ||| 1),
                    values := t.values.set idx v,
                    keys := t.keys.set idx k,
                    count := t.count + 1 }
    else if t.keys.getD idx 0 = k then
      some { t with values := t.values.set idx v, keys := t.keys.set idx k }
    else
      Table.insertLoop k v fuel t ((idx + 1) % t.capacity)

/-- The probe phase of `Table::put`, starting at `hash(key) % capacity`.
A full cycle of `capacity` probes revisits the start slot, so `capacity`
fuel is exact: running out models the loop cycling forever. -/
def Table.insertProbe (hash : Nat → Nat) (t : Table) (k v : Nat) : Option Table :=
  Table.insertLoop k v t.capacity t (hash k % t.capacity)

/-- The rehash loop of `Table::put`: reinsert every occupied slot of `old`
into `fresh` with the insertion function `put'`. -/
def Table.reinsert (put' : Table → Nat → Nat → Option Table) (old fresh : Table) :
    Option Table :=
  (List.range old.capacity).foldlM
    (fun acc i =>
      if old.meta.getD i 0 &&& 1 = 1 then
        put' acc (old.keys.getD i 0) (old.values.getD i 0)
      else
        pure acc)
    fresh

/-- Embedding of `Table::put` with `fuel` bounding the depth of the
recursion through the rehash's reinsertion calls.  On every call the
load-factor gate is checked first; when it fires, a fresh table of capacity
`COMT_TABLE_GROWTH_FACTOR(capacity) = (capacity + 1) * 3` is allocated and
every occupied slot reinserted by the same `put`. -/
def Table.putF (hash : Nat → Nat) : Nat → Table → Nat → Nat → Option Table
  | 0, _, _, _ => none
  | fuel + 1, t, k, v =>
    (if 70 ≤ t.load_percentage then
        Table.reinsert (Table.putF hash fuel) t (Table.alloc ((t.capacity + 1) * 3))
      else
        some t).bind
      fun t' => Table.insertProbe hash t' k v

/-- `Table::put`.  Recursion depth 2 suffices: reinsertions into the grown
table never fire the gate again (proved below), so they use only the
gate-free branch. -/
def Table.put (hash : Nat → Nat) (t : Table) (k v : Nat) : Option Table :=
  Table.putF hash 2 t k v

/-- Embedding of `Table::get`.  The `do`/`while (idx != initial_idx)` loop
visits exactly the `capacity` probe indices starting at
`hash(key) % capacity`; the result is the value at the first occupied slot
holding an equal key (`none` models returning `false`). -/
def Table.get (hash : Nat → Nat) (t : Table) (k : Nat) : Option Nat :=
  (List.range t.capacity).findSome? fun j =>
    let i := Table.probeIdx hash t k j
    if t.meta.getD i 0 &&& 1 = 1 ∧ t.keys.getD i 0 = k then
      some (t.values.getD i 0)
    else
      none

/-- Embedding of `Table::has`: same loop as `get` without the out value. -/
def Table.has (hash : Nat → Nat) (t : Table) (k : Nat) : Bool :=
  (List.range t.capacity).any fun j =>
    let i := Table.probeIdx hash t k j
    (t.meta.getD i 0 &&& 1 == 1) && (t.keys.getD i 0 == k)

/-- A sequence of `put` calls, from left to right. -/
def Table.runPuts (hash : Nat → Nat) (t : Table) (ops : List (Nat × Nat)) :
    Option Table :=
  ops.foldlM (fun acc p => Table.put hash acc p.1 p.2) t

/-! ## Hash set (`Set<T>` at `T = Nat`)

The set shares the table's growth-and-probe algorithm, but both `Set::put`
and `Set::has` start probing at the *raw* hash value, without reducing it
modulo the capacity first (`uint64_t hash = Hash<T>::hash(elem);` followed
directly by `meta[hash]`).  The first slot access can therefore be out of
bounds, so the set's element reads are embedded with the guarded `get?`,
`none` modelling the out-of-bounds access. -/

structure Set where
  values : List Nat
  meta : List Nat
  count : Nat
  capacity : Nat
deriving DecidableEq, Repr

/-- `Set::alloc` with zero-filled allocator memory. -/
def Set.alloc (capacity : Nat) : Set :=
  { values := List.replicate capacity 0, meta := List.replicate capacity 0,
    count := 0, capacity := capacity }

/-- `Set::load_percentage`: `(uint8_t)(100.0 * (double)count / (double)capacity)`. -/
def Set.load_percentage (s : Set) : Nat :=
  100 * s.count / s.capacity

/-- The `while (true)` loop of `Set::put`.  The caller passes the raw hash
value as the initial `idx`; only subsequent steps reduce `% capacity`. -/
def Set.putLoop (e : Nat) : Nat → Set → Nat → Option Set
  | 0, _, _ => none
  | fuel + 1, s, idx =>
    match s.meta.get? idx with
    | none => none
    | some m =>
      if ¬ m &&& 1 = 1 then
        some { s with meta := s.meta.set idx (m ||| 1),
                      values := s.values.set idx e,
                      count := s.count + 1 }
      else if s.values.get? idx = some e then
        some { s with values := s.values.set idx e }
      else
        Set.putLoop e fuel s ((idx + 1) % s.capacity)

/-- Embedding of `Set::put`: load-factor gate with growth factor
`(capacity + 1) * 3` and reinsertion through `Set::put` itself, then the
probe loop started at the unreduced hash value. -/
def Set.putF (hash : Nat → Nat) : Nat → Set → Nat → Option Set
  | 0, _, _ => none
  | fuel + 1, s, e =>
    (if 70 ≤ s.load_percentage then
        (List.range s.capacity).foldlM
          (fun acc i =>
            match s.meta.get? i with
            | none => none
            | some m =>
              if m &&& 1 = 1 then
                match s.values.get? i with
                | some x => Set.putF hash fuel acc x
                | none => none
              else
                pure acc)
          (Set.alloc ((s.capacity + 1) * 3))
      else
        some s).bind
      fun s' => Set.putLoop e (s'.capacity + 1) s' (hash e)

/-- `Set::put` with the same recursion depth bound as `Table.put`. -/
def Set.put (hash : Nat → Nat) (s : Set) (e : Nat) : Option Set :=
  Set.putF hash 2 s e

/-- The `do`/`while (idx != hash)` loop of `Set::has`; the stop comparison
is against the unreduced initial hash value. -/
def Set.hasLoop (s : Set) (e start : Nat) : Nat → Nat → Option Bool
  | 0, _ => none
  | fuel + 1, idx =>
    match s.meta.get? idx with
    | none => none
    | some m =>
      if m &&& 1 = 1 ∧ s.values.get? idx = some e then some true
      else
        let idx' := (idx + 1) % s.capacity
        if idx' = start then some false
        else Set.hasLoop s e start fuel idx'

/-- Embedding of `Set::has`, probing from the raw hash value. -/
def Set.has (hash : Nat → Nat) (s : Set) (e : Nat) : Option Bool :=
  Set.hasLoop s e (hash e) (s.capacity + 1) (hash e)

/-! ## Verification-side definitions for the table -/

/-- The table state produced by the insert branch of `Table::put`'s probe
loop at slot `i`: mark occupied, store value and key, bump the count. -/
def Table.insertAt (t : Table) (k v i : Nat) : Table :=
  { t with meta := t.meta.set i (t.meta.getD i 0 ||| 1),
           values := t.values.set i v,
           keys := t.keys.set i k,
           count := t.count + 1 }

/-- The table state produced by the update branch of `Table::put`'s probe
loop at slot `i`: overwrite value and key, leave the count alone. -/
def Table.updateAt (t : Table) (k v i : Nat) : Table :=
  { t with values := t.values.set i v, keys := t.keys.set i k }

/-- `k` is stored with value `v` at some occupied slot. -/
def Table.mapsTo (t : Table) (k v : Nat) : Prop :=
  ∃ i, i < t.capacity ∧ t.occB i = true ∧ t.keys.getD i 0 = k ∧ t.values.getD i 0 = v

/-- The representation invariant of the open-addressing table:
array lengths match the capacity, `count` counts the occupied slots and
never exceeds the capacity, occupied keys are pairwise distinct, and every
occupied slot is reachable from its key's start slot through a gap-free
linear-probe path. -/
structure Table.Inv (hash : Nat → Nat) (t : Table) : Prop where
  cap_pos : 0 < t.capacity
  klen : t.keys.length = t.capacity
  vlen : t.values.length = t.capacity
  mlen : t.meta.length = t.capacity
  count_le : t.count ≤ t.capacity
  count_eq : t.count = (List.range t.capacity).countP fun i => t.occB i
  nodup : ∀ i ∈ List.range t.capacity, ∀ j ∈ List.range t.capacity,
    t.occB i = true → t.occB j = true → t.keys.getD i 0 = t.keys.getD j 0 → i = j
  path : ∀ i ∈ List.range t.capacity, t.occB i = true →
    ∀ e ∈ List.range ((i + t.capacity - hash (t.keys.getD i 0) % t.capacity) % t.capacity),
      t.occB ((hash (t.keys.getD i 0) % t.capacity + e) % t.capacity) = true

/-- The value stored by the last `put` of the key `k` in an operation
sequence, if any. -/
def Table.lastVal (ops : List (Nat × Nat)) (k : Nat) : Option Nat :=
  (ops.reverse.find? fun p => p.1 == k).map fun p => p.2

/-- The concrete scenario of claim C5: keys `0..32`, each with value
`2 * key`, inserted in order. -/
def c5ops : List (Nat × Nat) :=
  (List.range 33).map fun k => (k, 2 * k)

end Compartment

namespace Compartment

/-! ## Auxiliary arithmetic lemmas -/

/-- For a power-of-two alignment, `align_to` rounds up to the next multiple. -/
theorem align_to_two_pow (x n : Nat) :
    align_to x (2 ^ n) = if x % 2 ^ n = 0 then x else x + (2 ^ n - x % 2 ^ n) := by
  unfold align_to
  have hmask : x &&& (2 ^ n - 1) = x % 2 ^ n := Nat.and_pow_two_sub_one_eq_mod x n
  have hlt : x % 2 ^ n < 2 ^ n := Nat.mod_lt _ (Nat.pos_pow_of_pos n (by norm_num))
  rw [hmask]
  by_cases h : x % 2 ^ n = 0
  · simp [h]
  · have h2 : 2 ^ n - x % 2 ^ n < 2 ^ n := by omega
    have : (2 ^ n - x % 2 ^ n) &&& (2 ^ n - 1) = (2 ^ n - x % 2 ^ n) % 2 ^ n :=
      Nat.and_pow_two_sub_one_eq_mod _ n
    rw [this, Nat.mod_eq_of_lt h2, if_neg h]

theorem align_to_8 (x : Nat) :
    align_to x 8 = if x % 8 = 0 then x else x + (8 - x % 8) := by
  have := align_to_two_pow x 3
  norm_num at this
  exact this

theorem align_to_4096 (x : Nat) :
    align_to x 4096 = if x % 4096 = 0 then x else x + (4096 - x % 4096) := by
  have := align_to_two_pow x 12
  norm_num at this
  exact this

theorem le_align_to_8 (x : Nat) : x ≤ align_to x 8 := by
  rw [align_to_8]; split <;> omega

theorem le_align_to_4096 (x : Nat) : x ≤ align_to x 4096 := by
  rw [align_to_4096]; split <;> omega

theorem align_to_4096_mod (x : Nat) : align_to x 4096 % 4096 = 0 := by
  rw [align_to_4096]; split <;> omega

theorem align_to_4096_idem (x : Nat) :
    align_to (align_to x 4096) 4096 = align_to x 4096 := by
  rw [align_to_4096 (align_to x 4096), if_pos (align_to_4096_mod x)]

/-! ## Claim C7: the bump allocator's wrap-around -/

/-- C7.  With an initialized buffer, when the aligned request fits the
buffer but advancing the cursor would overflow it, `raw_alloc` wraps:
it returns the buffer's start (offset `0`) and sets the cursor to the
aligned request size. -/
theorem fba_raw_alloc_wraps (a : FixedBufferAllocator) (size : Nat)
    (hbuf : a.has_buffer = true)
    (hfits : align_to size 8 ≤ a.buffer_size)
    (hoff : a.buffer_off ≤ a.buffer_size)
    (hwrap : a.buffer_size < a.buffer_off + align_to size 8) :
    a.raw_alloc size = (some 0, { a with buffer_off := align_to size 8 }) := by
  unfold FixedBufferAllocator.raw_alloc
  simp only [hbuf, if_true]
  rw [if_neg (by omega), if_pos (by omega)]

/-- Witness for C7: concrete wrap at buffer size 40960, cursor 40955,
request 16 bytes. -/
theorem fba_raw_alloc_wraps_witness :
    (true = true ∧ align_to 16 8 ≤ 40960 ∧ 40955 ≤ 40960 ∧
      40960 < 40955 + align_to 16 8) ∧
    FixedBufferAllocator.raw_alloc ⟨true, 40960, 40955⟩ 16 =
      (some 0, ⟨true, 40960, 16⟩) := by
  refine ⟨⟨rfl, by decide, by decide, by decide⟩, ?_⟩
  exact fba_raw_alloc_wraps ⟨true, 40960, 40955⟩ 16 rfl (by decide) (by decide) (by decide)

/-! ## Claim C8: `raw_dealloc`'s LIFO rewind -/

/-- C8 (code bug).  After allocating 16 bytes from a fresh cursor,
`raw_alloc` returns the pointer at offset `0` and leaves the cursor at
`16`.  Passing that returned pointer to `raw_dealloc` does *not* rewind
the cursor (the code compares against `buffer + buffer_off`, the end of
the allocation), while passing the never-returned end pointer `16` does
rewind.  This contradicts the claimed "rewind exactly for the pointer
returned by the most recent `raw_alloc`, no-op for any other". -/
theorem fba_raw_dealloc_not_lifo :
    FixedBufferAllocator.raw_alloc ⟨true, 40960, 0⟩ 16 =
      (some 0, ⟨true, 40960, 16⟩) ∧
    FixedBufferAllocator.raw_dealloc ⟨true, 40960, 16⟩ 0 16 = ⟨true, 40960, 16⟩ ∧
    FixedBufferAllocator.raw_dealloc ⟨true, 40960, 16⟩ 16 16 = ⟨true, 40960, 0⟩ := by
  refine ⟨by decide, by decide, by decide⟩

/-! ## Claim C4: `alloc_region` -/

/-- The pool-scan loop never returns once the first pool region lacks
space for a descriptor: the scan cursor is never advanced, only the head
chain is consumed, ending in a null dereference. -/
theorem allocRegionLoop_none (rsize : Nat) (p : Region) (rest : List Region)
    (ctr : Nat) (hfull : p.size - p.off < 32) :
    ∀ fuel hd, allocRegionLoop rsize p rest ctr fuel hd = none := by
  intro fuel
  induction fuel with
  | zero => intro hd; rfl
  | succ n ih =>
    intro hd
    rw [allocRegionLoop.eq_def]
    simp only [if_neg (show ¬ 32 ≤ p.size - p.off by omega)]
    cases hd with
    | nil => rfl
    | cons h t => exact ih t

/-- C4 (code bug).  Whenever the first `region_pool` region has fewer than
`sizeof(Region)` bytes of remaining space, `alloc_region` never terminates
normally, for any head chain and any amount of fuel: the loop variable
`current_region` is never reassigned (the code pops `head` instead), so the
claimed "carve a descriptor or acquire one new metadata page, leaving the
head data chain unchanged" is unreachable from such states. -/
theorem alloc_region_stuck_on_full_pool_head (p : Region) (rest hd : List Region)
    (ctr size fuel : Nat) (hfull : p.size - p.off < 32) :
    ArenaAllocator.alloc_region fuel ⟨hd, p :: rest, ctr⟩ size = none := by
  unfold ArenaAllocator.alloc_region
  simp [allocRegionLoop_none _ p rest _ hfull]

/-- Witness for C4: a pool whose first region is exactly full. -/
theorem alloc_region_stuck_witness :
    ((4096 : Nat) - 4096 < 32) ∧
    ArenaAllocator.alloc_region 50 ⟨[⟨1, 4096, 0⟩], [⟨0, 4096, 4096⟩], 5⟩ 4096 = none := by
  refine ⟨by decide, ?_⟩
  exact alloc_region_stuck_on_full_pool_head ⟨0, 4096, 4096⟩ [] [⟨1, 4096, 0⟩] 5 4096 50
    (by decide)

/-! ## Claim C9: `free()` -/

/-- C9 (code bug).  For a two-region head chain, `free()` performs two
page-release calls, but both pass the *first* region's data pointer and
size; the second region's pages `(200, 8192)` are never released, contrary
to the claimed one-call-per-region with that region's own fields.  (No
`region_pool` page appears in the call list, as the claim states.) -/
theorem arena_free_passes_first_region_only :
    ArenaAllocator.freeCalls ⟨[⟨100, 4096, 0⟩, ⟨200, 8192, 0⟩], [], 0⟩ =
      [(100, 4096), (100, 4096)] ∧
    ¬ ArenaAllocator.freeCalls ⟨[⟨100, 4096, 0⟩, ⟨200, 8192, 0⟩], [], 0⟩ =
      [(100, 4096), (200, 8192)] := by
  refine ⟨rfl, by decide⟩

/-! ## Claim C6: `raw_alloc` first fit and growth -/

theorem serveLoop_first_fit (sz : Nat) :
    ∀ (l : List Region) (i : Nat) (r : Region),
      l[i]? = some r → sz ≤ r.size - r.off →
      (∀ j rj, j < i → l[j]? = some rj → rj.size - rj.off < sz) →
      serveLoop sz l = some (r.data + r.off, l.set i { r with off := r.off + sz }) := by
  intro l
  induction l with
  | nil => intro i r h; simp at h
  | cons x xs ih =>
    intro i r hget hfit hmin
    cases i with
    | zero =>
      simp at hget
      subst hget
      simp [serveLoop, if_pos hfit]
    | succ i' =>
      have hx : x.size - x.off < sz := hmin 0 x (by omega) (by simp)
      simp only [List.getElem?_cons_succ] at hget
      rw [serveLoop, if_neg (by omega),
        ih i' r hget hfit (fun j rj hj hg => hmin (j + 1) rj (by omega) (by simpa using hg))]
      rfl

theorem serveLoop_none (sz : Nat) :
    ∀ l : List Region, (∀ r ∈ l, r.size - r.off < sz) → serveLoop sz l = none := by
  intro l
  induction l with
  | nil => intro _; rfl
  | cons x xs ih =>
    intro h
    rw [serveLoop, if_neg (by have := h x (by simp); omega),
      ih (fun r hr => h r (by simp [hr]))]
    rfl

/-- C6.  `raw_alloc` serves the aligned request from the first head region
with sufficient remaining space, leaving the rest of the chain untouched;
when no region fits (here from a fresh metadata pool), it allocates exactly
one new region whose size is the aligned request rounded up to the page
size (hence at least the request), prepends it to `head`, and serves the
request from its start. -/
theorem arena_raw_alloc_spec (a : ArenaAllocator) (size fuel : Nat)
    (hpool : a.region_pool = []) :
    (∀ i r, a.head[i]? = some r → align_to size 8 ≤ r.size - r.off →
      (∀ j rj, j < i → a.head[j]? = some rj → rj.size - rj.off < align_to size 8) →
      a.raw_alloc fuel size =
        some (r.data + r.off,
          { a with head := a.head.set i { r with off := r.off + align_to size 8 } })) ∧
    ((∀ r ∈ a.head, r.size - r.off < align_to size 8) →
      a.raw_alloc fuel size =
        some (a.ctr + 1,
          { head := { data := a.ctr + 1, size := align_to (align_to size 8) 4096,
                      off := align_to size 8 } :: a.head,
            region_pool := [{ data := a.ctr, size := 4096, off := 32 }],
            ctr := a.ctr + 2 }) ∧
      align_to size 8 ≤ align_to (align_to size 8) 4096 ∧
      size ≤ align_to (align_to size 8) 4096) := by
  constructor
  · intro i r hget hfit hmin
    have hs := serveLoop_first_fit (align_to size 8) a.head i r hget hfit hmin
    simp only [ArenaAllocator.raw_alloc, hs]
  · intro hnone
    have hs := serveLoop_none (align_to size 8) a.head hnone
    refine ⟨?_, le_align_to_4096 _, le_trans (le_align_to_8 size) (le_align_to_4096 _)⟩
    simp only [ArenaAllocator.raw_alloc, hs, ArenaAllocator.alloc_region, hpool,
      Option.map_some, align_to_4096_idem]
    simp

/-- Witness for C6: the spec's concrete scenario — one 4096-byte region,
request of 5000 bytes; a new 8192-byte region is created, placed ahead of
the old one, and the pointer comes from its start. -/
theorem arena_raw_alloc_spec_witness :
    (ArenaAllocator.region_pool ⟨[⟨0, 4096, 0⟩], [], 10⟩ = []) ∧
    ArenaAllocator.raw_alloc 1 ⟨[⟨0, 4096, 0⟩], [], 10⟩ 5000 =
      some (11, ⟨[⟨11, 8192, 5000⟩, ⟨0, 4096, 0⟩], [⟨10, 4096, 32⟩], 12⟩) ∧
    (5000 : Nat) ≤ 8192 := by
  refine ⟨rfl, ?_, by decide⟩
  have h := (arena_raw_alloc_spec ⟨[⟨0, 4096, 0⟩], [], 10⟩ 5000 1 rfl).2
    (by intro r hr; simp at hr; subst hr; decide)
  rw [h.1]
  decide

/-! ## Claim C3: the set probes from the unreduced hash -/

/-- C3.  `Set::has` and `Set::put` start probing at the raw hash value:
whenever `hash e` is at least the capacity, the very first `meta` access is
out of bounds and the guarded embedding fails, for any set below the load
threshold.  The keyed table instead reduces modulo the capacity before
probing, so every slot index it inspects is in range. -/
theorem set_probe_start_unreduced (hash : Nat → Nat) (s : Set) (e : Nat)
    (hlen : s.meta.length = s.capacity) (hoob : s.capacity ≤ hash e)
    (hgate : s.load_percentage < 70) :
    Set.has hash s e = none ∧ Set.put hash s e = none ∧
    (∀ (t : Table) (k j : Nat), 0 < t.capacity → Table.probeIdx hash t k j < t.capacity) := by
  have hnone : s.meta.get? (hash e) = none := by
    rw [List.get?_eq_none]
    omega
  refine ⟨?_, ?_, fun t k j h => Nat.mod_lt _ h⟩
  · rw [Set.has, Set.hasLoop, hnone]
  · rw [Set.put, Set.putF, if_neg (by omega)]
    simp only [Option.some_bind]
    rw [Set.putLoop, hnone]

/-- Witness for C3: identity hash, capacity 5, element 7. -/
theorem set_probe_start_unreduced_witness :
    ((List.replicate 5 0).length = 5 ∧ (5 : Nat) ≤ 7 ∧
      Set.load_percentage ⟨List.replicate 5 0, List.replicate 5 0, 0, 5⟩ < 70) ∧
    Set.has (fun x => x) ⟨List.replicate 5 0, List.replicate 5 0, 0, 5⟩ 7 = none ∧
    Set.put (fun x => x) ⟨List.replicate 5 0, List.replicate 5 0, 0, 5⟩ 7 = none := by
  have h := set_probe_start_unreduced (fun x => x)
    ⟨List.replicate 5 0, List.replicate 5 0, 0, 5⟩ 7 (by decide) (by decide) (by decide)
  exact ⟨⟨by decide, by decide, by decide⟩, h.1, h.2.1⟩

/-! ## List and arithmetic helpers for the table proofs -/

theorem getD_set_self (l : List Nat) (i a : Nat) (h : i < l.length) :
    (l.set i a).getD i 0 = a := by
  simp [List.getD_eq_getElem?_getD, List.getElem?_set_self h]

theorem getD_set_ne (l : List Nat) (i j a : Nat) (h : i ≠ j) :
    (l.set i a).getD j 0 = l.getD j 0 := by
  simp [List.getD_eq_getElem?_getD, List.getElem?_set_ne h]

theorem getD_replicate_zero (n i : Nat) : (List.replicate n 0).getD i 0 = 0 := by
  simp [List.getD_eq_getElem?_getD, List.getElem?_replicate]
  split <;> rfl

theorem lor_one_mod_two (m : Nat) : (m ||| 1) % 2 = 1 := by
  have h : (m ||| 1).testBit 0 = true := by
    simp [Nat.testBit_lor]
  rw [Nat.testBit_zero] at h
  exact of_decide_eq_true h

theorem lor_one_and_one (m : Nat) : (m ||| 1) &&& 1 = 1 := by
  rw [Nat.and_one_is_mod]
  exact lor_one_mod_two m

theorem probe_step (s e cap : Nat) :
    ((s + e) % cap + 1) % cap = (s + (e + 1)) % cap := by
  rw [Nat.mod_add_mod, Nat.add_assoc]

theorem dist_probe (s e cap : Nat) (hs : s < cap) (he : e < cap) :
    ((s + e) % cap + cap - s) % cap = e := by
  have h1 : (s + e) % cap + cap - s = (s + e) % cap + (cap - s) := by omega
  rw [h1, Nat.mod_add_mod]
  have h2 : s + e + (cap - s) = e + cap := by omega
  rw [h2, Nat.add_mod_right, Nat.mod_eq_of_lt he]

theorem probe_of_dist (s i cap : Nat) (hs : s < cap) (hi : i < cap) :
    (s + (i + cap - s) % cap) % cap = i := by
  rw [Nat.add_mod_mod]
  have h : s + (i + cap - s) = i + cap := by omega
  rw [h, Nat.add_mod_right, Nat.mod_eq_of_lt hi]

theorem probe_surj (s i cap : Nat) (hcap : 0 < cap) (hs : s < cap) (hi : i < cap) :
    ∃ e, e < cap ∧ (s + e) % cap = i :=
  ⟨(i + cap - s) % cap, Nat.mod_lt _ hcap, probe_of_dist s i cap hs hi⟩

theorem occB_true_iff (t : Table) (i : Nat) :
    t.occB i = true ↔ t.meta.getD i 0 &&& 1 = 1 := by
  simp [Table.occB]

theorem occB_false_iff (t : Table) (i : Nat) :
    t.occB i = false ↔ ¬ t.meta.getD i 0 &&& 1 = 1 := by
  simp [Table.occB]

theorem countP_range_set_true (cap i : Nat) (p q : Nat → Bool) (hi : i < cap)
    (hpi : p i = false) (hqi : q i = true)
    (hagree : ∀ j, j < cap → j ≠ i → q j = p j) :
    (List.range cap).countP q = (List.range cap).countP p + 1 := by
  induction cap with
  | zero => omega
  | succ n ih =>
    rw [List.range_succ, List.countP_append, List.countP_append]
    by_cases hin : i = n
    · subst hin
      have hcong : (List.range i).countP q = (List.range i).countP p := by
        apply List.countP_congr
        intro x hx
        rw [hagree x (by simpa using Nat.lt_succ_of_lt (List.mem_range.mp hx))
          (by have := List.mem_range.mp hx; omega)]
      rw [hcong]
      simp [List.countP_cons, hpi, hqi]
    · have hlt : i < n := by omega
      rw [ih hlt (fun j hj hne => hagree j (by omega) hne)]
      have hqn : q n = p n := hagree n (by omega) (by omega)
      simp [List.countP_cons, hqn]
      omega

theorem insertLoop_run (hash : Nat → Nat) (t : Table) (k v : Nat) :
    ∀ fuel steps, fuel + steps = t.capacity →
      (∀ e, e < steps → t.occB ((hash k % t.capacity + e) % t.capacity) = true ∧
        t.keys.getD ((hash k % t.capacity + e) % t.capacity) 0 ≠ k) →
      (∃ e, steps ≤ e ∧ e < t.capacity ∧
        t.occB ((hash k % t.capacity + e) % t.capacity) = false) →
      ∃ e, steps ≤ e ∧ e < t.capacity ∧
        (∀ e', steps ≤ e' → e' < e →
          t.occB ((hash k % t.capacity + e') % t.capacity) = true ∧
          t.keys.getD ((hash k % t.capacity + e') % t.capacity) 0 ≠ k) ∧
        ((t.occB ((hash k % t.capacity + e) % t.capacity) = false ∧
          Table.insertLoop k v fuel t ((hash k % t.capacity + steps) % t.capacity) =
            some (t.insertAt k v ((hash k % t.capacity + e) % t.capacity))) ∨
        (t.occB ((hash k % t.capacity + e) % t.capacity) = true ∧
          t.keys.getD ((hash k % t.capacity + e) % t.capacity) 0 = k ∧
          Table.insertLoop k v fuel t ((hash k % t.capacity + steps) % t.capacity) =
            some (t.updateAt k v ((hash k % t.capacity + e) % t.capacity)))) := by
  intro fuel
  induction fuel with
  | zero =>
    intro steps hsum _hvis hfree
    exfalso
    obtain ⟨e, he1, he2, _⟩ := hfree
    omega
  | succ n ih =>
    intro steps hsum hvis hfree
    by_cases hocc : t.occB ((hash k % t.capacity + steps) % t.capacity) = true
    · by_cases hkey : t.keys.getD ((hash k % t.capacity + steps) % t.capacity) 0 = k
      · -- update at offset `steps`
        refine ⟨steps, le_refl _, ?_, fun e' h1 h2 => absurd h2 (by omega),
          Or.inr ⟨hocc, hkey, ?_⟩⟩
        · obtain ⟨e, he1, he2, _⟩ := hfree; omega
        · simp only [Table.insertLoop]
          rw [if_neg (not_not_intro ((occB_true_iff _ _).mp hocc)), if_pos hkey]
          rfl
      · -- occupied by another key: probe onward
        have hvis' : ∀ e, e < steps + 1 →
            t.occB ((hash k % t.capacity + e) % t.capacity) = true ∧
            t.keys.getD ((hash k % t.capacity + e) % t.capacity) 0 ≠ k := by
          intro e he
          rcases Nat.lt_succ_iff_lt_or_eq.mp he with h | h
          · exact hvis e h
          · subst h; exact ⟨hocc, hkey⟩
        have hfree' : ∃ e, steps + 1 ≤ e ∧ e < t.capacity ∧
            t.occB ((hash k % t.capacity + e) % t.capacity) = false := by
          obtain ⟨e, he1, he2, he3⟩ := hfree
          refine ⟨e, ?_, he2, he3⟩
          rcases Nat.eq_or_lt_of_le he1 with h | h
          · exfalso; rw [← h, hocc] at he3; cases he3
          · omega
        obtain ⟨e, he1, he2, hpre, hres⟩ := ih (steps + 1) (by omega) hvis' hfree'
        have hub : Table.insertLoop k v (n + 1) t ((hash k % t.capacity + steps) % t.capacity)
            = Table.insertLoop k v n t ((hash k % t.capacity + (steps + 1)) % t.capacity) := by
          simp only [Table.insertLoop]
          rw [if_neg (not_not_intro ((occB_true_iff _ _).mp hocc)), if_neg hkey,
            probe_step]
        refine ⟨e, by omega, he2, ?_, ?_⟩
        · intro e' h1 h2
          rcases Nat.eq_or_lt_of_le h1 with h | h
          · rw [← h]; exact ⟨hocc, hkey⟩
          · exact hpre e' (by omega) h2
        · rcases hres with ⟨hf, heq⟩ | ⟨ho, hk2, heq⟩
          · exact Or.inl ⟨hf, by rw [hub]; exact heq⟩
          · exact Or.inr ⟨ho, hk2, by rw [hub]; exact heq⟩
    · -- free slot at offset `steps`: insert here
      have hoccf : t.occB ((hash k % t.capacity + steps) % t.capacity) = false := by
        revert hocc; cases t.occB ((hash k % t.capacity + steps) % t.capacity) <;> simp
      refine ⟨steps, le_refl _, by omega, fun e' h1 h2 => absurd h2 (by omega),
        Or.inl ⟨hoccf, ?_⟩⟩
      simp only [Table.insertLoop]
      rw [if_pos ((occB_false_iff _ _).mp hoccf)]
      rfl

theorem exists_free_of_count_lt (t : Table)
    (hcount : t.count = (List.range t.capacity).countP fun i => t.occB i)
    (hlt : t.count < t.capacity) :
    ∃ i, i < t.capacity ∧ t.occB i = false := by
  by_contra h
  push_neg at h
  have hall : ∀ i ∈ List.range t.capacity, t.occB i = true := by
    intro i hi
    have := h i (List.mem_range.mp hi)
    revert this
    cases t.occB i <;> simp
  have := List.countP_eq_length.mpr (fun a ha => by simpa using hall a ha)
  rw [this, List.length_range] at hcount
  omega

theorem insertProbe_run (hash : Nat → Nat) (t : Table) (k v : Nat)
    (hInv : t.Inv hash) (hlt : t.count < t.capacity) :
    ∃ e, e < t.capacity ∧
      (∀ e', e' < e → t.occB ((hash k % t.capacity + e') % t.capacity) = true ∧
        t.keys.getD ((hash k % t.capacity + e') % t.capacity) 0 ≠ k) ∧
      ((t.occB ((hash k % t.capacity + e) % t.capacity) = false ∧
        Table.insertProbe hash t k v =
          some (t.insertAt k v ((hash k % t.capacity + e) % t.capacity))) ∨
      (t.occB ((hash k % t.capacity + e) % t.capacity) = true ∧
        t.keys.getD ((hash k % t.capacity + e) % t.capacity) 0 = k ∧
        Table.insertProbe hash t k v =
          some (t.updateAt k v ((hash k % t.capacity + e) % t.capacity)))) := by
  obtain ⟨i, hi, hif⟩ := exists_free_of_count_lt t hInv.count_eq hlt
  have hs : hash k % t.capacity < t.capacity := Nat.mod_lt _ hInv.cap_pos
  obtain ⟨e0, he0, heq0⟩ := probe_surj (hash k % t.capacity) i t.capacity hInv.cap_pos hs hi
  obtain ⟨e, _, he2, hpre, hres⟩ := insertLoop_run hash t k v t.capacity 0 (by omega)
    (fun e h => absurd h (by omega))
    ⟨e0, Nat.zero_le _, he0, by rw [heq0]; exact hif⟩
  have hz : (hash k % t.capacity + 0) % t.capacity = hash k % t.capacity := by
    rw [Nat.add_zero, Nat.mod_eq_of_lt hs]
  rw [hz] at hres
  exact ⟨e, he2, fun e' h => hpre e' (by omega) h, hres⟩

theorem key_not_present (hash : Nat → Nat) (t : Table) (k e : Nat)
    (hInv : t.Inv hash) (_he : e < t.capacity)
    (hfree : t.occB ((hash k % t.capacity + e) % t.capacity) = false)
    (hpre : ∀ e', e' < e → t.occB ((hash k % t.capacity + e') % t.capacity) = true ∧
      t.keys.getD ((hash k % t.capacity + e') % t.capacity) 0 ≠ k) :
    ∀ j, j < t.capacity → t.occB j = true → t.keys.getD j 0 ≠ k := by
  intro j hj hocc hkey
  have hs : hash k % t.capacity < t.capacity := Nat.mod_lt _ hInv.cap_pos
  have hdlt : (j + t.capacity - hash k % t.capacity) % t.capacity < t.capacity :=
    Nat.mod_lt _ hInv.cap_pos
  have hback : (hash k % t.capacity +
      (j + t.capacity - hash k % t.capacity) % t.capacity) % t.capacity = j :=
    probe_of_dist (hash k % t.capacity) j t.capacity hs hj
  have hpath := hInv.path j (List.mem_range.mpr hj) hocc
  rw [hkey] at hpath
  rcases Nat.lt_trichotomy ((j + t.capacity - hash k % t.capacity) % t.capacity) e
    with h | h | h
  · have := (hpre _ h).2
    rw [hback] at this
    exact this hkey
  · rw [h] at hback
    rw [hback] at hfree
    simp [hfree] at hocc
  · have := hpath e (List.mem_range.mpr h)
    rw [this] at hfree
    cases hfree

/-! Pointwise descriptions of the two put outcomes. -/

theorem insertAt_occB (t : Table) (k v i j : Nat) (hmlen : i < t.meta.length) :
    (t.insertAt k v i).occB j = if j = i then true else t.occB j := by
  by_cases h : j = i
  · subst h
    simp only [Table.insertAt, Table.occB, if_pos rfl]
    rw [getD_set_self _ _ _ hmlen]
    simp [lor_one_and_one]
  · simp only [Table.insertAt, Table.occB, if_neg h]
    rw [getD_set_ne _ i j _ (Ne.symm h)]

theorem insertAt_keys (t : Table) (k v i j : Nat) (hklen : i < t.keys.length) :
    (t.insertAt k v i).keys.getD j 0 = if j = i then k else t.keys.getD j 0 := by
  by_cases h : j = i
  · subst h
    simp only [Table.insertAt, if_pos rfl]
    exact getD_set_self _ _ _ hklen
  · simp only [Table.insertAt, if_neg h]
    exact getD_set_ne _ i j _ (Ne.symm h)

theorem insertAt_values (t : Table) (k v i j : Nat) (hvlen : i < t.values.length) :
    (t.insertAt k v i).values.getD j 0 = if j = i then v else t.values.getD j 0 := by
  by_cases h : j = i
  · subst h
    simp only [Table.insertAt, if_pos rfl]
    exact getD_set_self _ _ _ hvlen
  · simp only [Table.insertAt, if_neg h]
    exact getD_set_ne _ i j _ (Ne.symm h)

theorem updateAt_occB (t : Table) (k v i j : Nat) :
    (t.updateAt k v i).occB j = t.occB j := rfl

theorem updateAt_keys (t : Table) (k v i j : Nat) (hklen : i < t.keys.length) :
    (t.updateAt k v i).keys.getD j 0 = if j = i then k else t.keys.getD j 0 := by
  by_cases h : j = i
  · subst h
    simp only [Table.updateAt, if_pos rfl]
    exact getD_set_self _ _ _ hklen
  · simp only [Table.updateAt, if_neg h]
    exact getD_set_ne _ i j _ (Ne.symm h)

theorem updateAt_values (t : Table) (k v i j : Nat) (hvlen : i < t.values.length) :
    (t.updateAt k v i).values.getD j 0 = if j = i then v else t.values.getD j 0 := by
  by_cases h : j = i
  · subst h
    simp only [Table.updateAt, if_pos rfl]
    exact getD_set_self _ _ _ hvlen
  · simp only [Table.updateAt, if_neg h]
    exact getD_set_ne _ i j _ (Ne.symm h)

/-- Post-state of the insert branch: the invariant is preserved, the
abstract mapping gains exactly the binding `k ↦ v`, and the count grows. -/
theorem insertAt_post (hash : Nat → Nat) (t : Table) (k v e i : Nat)
    (hInv : t.Inv hash) (hlt : t.count < t.capacity) (he : e < t.capacity)
    (hieq : i = (hash k % t.capacity + e) % t.capacity)
    (hfree : t.occB i = false)
    (hpre : ∀ e', e' < e → t.occB ((hash k % t.capacity + e') % t.capacity) = true ∧
      t.keys.getD ((hash k % t.capacity + e') % t.capacity) 0 ≠ k) :
    (t.insertAt k v i).Inv hash ∧
    (∀ k' v', (t.insertAt k v i).mapsTo k' v' ↔
      ((k' = k ∧ v' = v) ∨ (k' ≠ k ∧ t.mapsTo k' v'))) ∧
    (t.insertAt k v i).count = t.count + 1 := by
  have hcap := hInv.cap_pos
  have hs : hash k % t.capacity < t.capacity := Nat.mod_lt _ hcap
  have hi : i < t.capacity := by rw [hieq]; exact Nat.mod_lt _ hcap
  have hnp : ∀ j, j < t.capacity → t.occB j = true → t.keys.getD j 0 ≠ k :=
    key_not_present hash t k e hInv he (by rw [← hieq]; exact hfree) hpre
  set T := t.insertAt k v i with hT
  have hc : T.capacity = t.capacity := rfl
  have hcnt : T.count = t.count + 1 := rfl
  have hoccL : ∀ j, T.occB j = if j = i then true else t.occB j :=
    fun j => insertAt_occB t k v i j (by rw [hInv.mlen]; exact hi)
  have hkeyL : ∀ j, T.keys.getD j 0 = if j = i then k else t.keys.getD j 0 :=
    fun j => insertAt_keys t k v i j (by rw [hInv.klen]; exact hi)
  have hvalL : ∀ j, T.values.getD j 0 = if j = i then v else t.values.getD j 0 :=
    fun j => insertAt_values t k v i j (by rw [hInv.vlen]; exact hi)
  refine ⟨⟨hcap, ?_, ?_, ?_, ?_, ?_, ?_, ?_⟩, ?_, hcnt⟩
  · show (t.keys.set i k).length = t.capacity
    rw [List.length_set]; exact hInv.klen
  · show (t.values.set i v).length = t.capacity
    rw [List.length_set]; exact hInv.vlen
  · show (t.meta.set i (t.meta.getD i 0 ||| 1)).length = t.capacity
    rw [List.length_set]; exact hInv.mlen
  · show t.count + 1 ≤ t.capacity
    omega
  · show t.count + 1 = (List.range t.capacity).countP fun j => T.occB j
    rw [countP_range_set_true t.capacity i (fun j => t.occB j) (fun j => T.occB j) hi
      hfree (by show T.occB i = true; rw [hoccL i, if_pos rfl])
      (fun j _ hne => by show T.occB j = t.occB j; rw [hoccL j, if_neg hne])]
    rw [← hInv.count_eq]
  · -- nodup
    intro i1 h1 i2 h2 ho1 ho2 hk12
    rw [hc] at h1 h2
    have h1' := List.mem_range.mp h1
    have h2' := List.mem_range.mp h2
    rw [hoccL i1] at ho1
    rw [hoccL i2] at ho2
    rw [hkeyL i1, hkeyL i2] at hk12
    by_cases e1 : i1 = i <;> by_cases e2 : i2 = i
    · rw [e1, e2]
    · exfalso
      rw [if_pos e1, if_neg e2] at hk12
      rw [if_neg e2] at ho2
      exact hnp i2 h2' ho2 hk12.symm
    · exfalso
      rw [if_neg e1, if_pos e2] at hk12
      rw [if_neg e1] at ho1
      exact hnp i1 h1' ho1 hk12
    · rw [if_neg e1] at ho1
      rw [if_neg e2] at ho2
      rw [if_neg e1, if_neg e2] at hk12
      exact hInv.nodup i1 (List.mem_range.mpr h1') i2 (List.mem_range.mpr h2') ho1 ho2 hk12
  · -- path
    intro j hj hoccj e' he'
    rw [hc] at hj
    have hjlt := List.mem_range.mp hj
    rw [hoccL j] at hoccj
    rw [hc, hkeyL j] at he'
    rw [hc, hkeyL j]
    by_cases hji : j = i
    · rw [if_pos hji] at he' ⊢
      rw [hji, hieq, dist_probe _ _ _ hs he] at he'
      have he'lt := List.mem_range.mp he'
      rw [hoccL]
      by_cases hx : (hash k % t.capacity + e') % t.capacity = i
      · rw [if_pos hx]
      · rw [if_neg hx]
        exact (hpre e' he'lt).1
    · rw [if_neg hji] at he' ⊢
      rw [if_neg hji] at hoccj
      have hp := hInv.path j (List.mem_range.mpr hjlt) hoccj e' he'
      rw [hoccL]
      by_cases hx : (hash (t.keys.getD j 0) % t.capacity + e') % t.capacity = i
      · rw [if_pos hx]
      · rw [if_neg hx]
        exact hp
  · -- the abstract mapping
    intro k' v'
    constructor
    · rintro ⟨j, hj, ho, hk', hv'⟩
      rw [hc] at hj
      rw [hoccL j] at ho
      rw [hkeyL j] at hk'
      rw [hvalL j] at hv'
      by_cases hji : j = i
      · rw [if_pos hji] at hk' hv'
        exact Or.inl ⟨hk'.symm, hv'.symm⟩
      · rw [if_neg hji] at ho hk' hv'
        refine Or.inr ⟨?_, ⟨j, hj, ho, hk', hv'⟩⟩
        intro hkk
        exact hnp j hj ho (by rw [hk', hkk])
    · rintro (⟨hkk, hvv⟩ | ⟨hne, ⟨j, hj, ho, hk', hv'⟩⟩)
      · refine ⟨i, ?_, ?_, ?_, ?_⟩
        · rw [hc]; exact hi
        · rw [hoccL, if_pos rfl]
        · rw [hkeyL, if_pos rfl]; exact hkk.symm
        · rw [hvalL, if_pos rfl]; exact hvv.symm
      · have hji : j ≠ i := by
          intro hh
          rw [hh] at ho
          rw [ho] at hfree
          cases hfree
        refine ⟨j, ?_, ?_, ?_, ?_⟩
        · rw [hc]; exact hj
        · rw [hoccL, if_neg hji]; exact ho
        · rw [hkeyL, if_neg hji]; exact hk'
        · rw [hvalL, if_neg hji]; exact hv'

/-- Post-state of the update branch: the invariant is preserved, the
binding of `k` is overwritten with `v`, and the count is unchanged. -/
theorem updateAt_post (hash : Nat → Nat) (t : Table) (k v i : Nat)
    (hInv : t.Inv hash) (hi : i < t.capacity)
    (hocc : t.occB i = true) (hkey : t.keys.getD i 0 = k) :
    (t.updateAt k v i).Inv hash ∧
    (∀ k' v', (t.updateAt k v i).mapsTo k' v' ↔
      ((k' = k ∧ v' = v) ∨ (k' ≠ k ∧ t.mapsTo k' v'))) ∧
    (t.updateAt k v i).count = t.count := by
  set T := t.updateAt k v i with hT
  have hc : T.capacity = t.capacity := rfl
  have hcnt : T.count = t.count := rfl
  have hoccL : ∀ j, T.occB j = t.occB j := fun j => rfl
  have hkeyL : ∀ j, T.keys.getD j 0 = t.keys.getD j 0 := by
    intro j
    rw [updateAt_keys t k v i j (by rw [hInv.klen]; exact hi)]
    by_cases h : j = i
    · rw [if_pos h, h, hkey]
    · rw [if_neg h]
  have hvalL : ∀ j, T.values.getD j 0 = if j = i then v else t.values.getD j 0 :=
    fun j => updateAt_values t k v i j (by rw [hInv.vlen]; exact hi)
  refine ⟨⟨hInv.cap_pos, ?_, ?_, hInv.mlen, hInv.count_le, hInv.count_eq, ?_, ?_⟩, ?_, hcnt⟩
  · show (t.keys.set i k).length = t.capacity
    rw [List.length_set]; exact hInv.klen
  · show (t.values.set i v).length = t.capacity
    rw [List.length_set]; exact hInv.vlen
  · -- nodup
    intro i1 h1 i2 h2 ho1 ho2 hk12
    rw [hkeyL i1, hkeyL i2] at hk12
    exact hInv.nodup i1 h1 i2 h2 ho1 ho2 hk12
  · -- path
    intro j hj hoccj e' he'
    rw [hkeyL j] at he' ⊢
    exact hInv.path j hj hoccj e' he'
  · -- the abstract mapping
    intro k' v'
    constructor
    · rintro ⟨j, hj, ho, hk', hv'⟩
      rw [hc] at hj
      rw [hkeyL j] at hk'
      rw [hvalL j] at hv'
      by_cases hji : j = i
      · rw [if_pos hji] at hv'
        rw [hji] at hk'
        refine Or.inl ⟨?_, hv'.symm⟩
        rw [← hk', hkey]
      · rw [if_neg hji] at hv'
        refine Or.inr ⟨?_, ⟨j, hj, ho, hk', hv'⟩⟩
        intro hkk
        exact hji (hInv.nodup j (List.mem_range.mpr hj) i (List.mem_range.mpr hi) ho hocc
          (by rw [hk', hkk, hkey]))
    · rintro (⟨hkk, hvv⟩ | ⟨hne, ⟨j, hj, ho, hk', hv'⟩⟩)
      · refine ⟨i, ?_, hocc, ?_, ?_⟩
        · rw [hc]; exact hi
        · rw [hkeyL, hkey]; exact hkk.symm
        · rw [hvalL, if_pos rfl]; exact hvv.symm
      · have hji : j ≠ i := by
          intro hh
          rw [hh, hkey] at hk'
          exact hne (hk'.symm ▸ rfl)
        refine ⟨j, ?_, ho, ?_, ?_⟩
        · rw [hc]; exact hj
        · rw [hkeyL]; exact hk'
        · rw [hvalL, if_neg hji]; exact hv'

/-- The probe phase of `put` on a table with a free slot: it succeeds and
either inserts (count grows) or updates an existing binding of `k`. -/
theorem insertProbe_full (hash : Nat → Nat) (u : Table) (k v : Nat)
    (hInv : u.Inv hash) (hlt : u.count < u.capacity) :
    ∃ t', Table.insertProbe hash u k v = some t' ∧ t'.capacity = u.capacity ∧
      t'.Inv hash ∧
      (∀ k' v', t'.mapsTo k' v' ↔ ((k' = k ∧ v' = v) ∨ (k' ≠ k ∧ u.mapsTo k' v'))) ∧
      (t'.count = u.count + 1 ∨ (t'.count = u.count ∧ ∃ w, u.mapsTo k w)) := by
  obtain ⟨e, he, hpre, hres⟩ := insertProbe_run hash u k v hInv hlt
  rcases hres with ⟨hfree, heq⟩ | ⟨ho, hk2, heq⟩
  · obtain ⟨hInv', hmaps, hcount⟩ := insertAt_post hash u k v e _ hInv hlt he rfl hfree hpre
    exact ⟨_, heq, rfl, hInv', hmaps, Or.inl hcount⟩
  · obtain ⟨hInv', hmaps, hcount⟩ :=
      updateAt_post hash u k v _ hInv (Nat.mod_lt _ hInv.cap_pos) ho hk2
    exact ⟨_, heq, rfl, hInv', hmaps, Or.inr ⟨hcount,
      ⟨u.values.getD ((hash k % u.capacity + e) % u.capacity) 0,
        ⟨_, Nat.mod_lt _ hInv.cap_pos, ho, hk2, rfl⟩⟩⟩⟩

theorem occB_alloc (c i : Nat) : (Table.alloc c).occB i = false := by
  simp only [Table.alloc, Table.allocMem, Table.occB]
  rw [getD_replicate_zero]
  rfl

theorem mapsTo_alloc (c k v : Nat) : ¬ (Table.alloc c).mapsTo k v := by
  rintro ⟨i, _, ho, _, _⟩
  rw [occB_alloc] at ho
  cases ho

theorem alloc_Inv (hash : Nat → Nat) (c : Nat) (hc : 0 < c) :
    (Table.alloc c).Inv hash := by
  refine ⟨hc, List.length_replicate _ _, List.length_replicate _ _,
    List.length_replicate _ _, Nat.zero_le _, ?_, ?_, ?_⟩
  · show 0 = (List.range c).countP fun i => (Table.alloc c).occB i
    symm
    apply List.countP_eq_zero.mpr
    intro a _
    simp [occB_alloc]
  · intro i1 _ _ _ ho1
    rw [occB_alloc] at ho1
    cases ho1
  · intro j _ ho
    rw [occB_alloc] at ho
    cases ho

theorem gate_false_count_lt (t : Table) (hcap : 0 < t.capacity)
    (h : ¬ 70 ≤ t.load_percentage) : t.count < t.capacity := by
  unfold Table.load_percentage at h
  have h2 : t.count * 100 / t.capacity < 70 := by omega
  have h3 : t.count * 100 < 70 * t.capacity := by
    have := (Nat.div_lt_iff_lt_mul hcap).mp h2
    omega
  omega

theorem grown_gate_false (r : Table) (cap0 : Nat) (h1 : r.count ≤ cap0)
    (h2 : r.capacity = (cap0 + 1) * 3) : ¬ 70 ≤ r.load_percentage := by
  unfold Table.load_percentage
  rw [h2]
  have hpos : 0 < (cap0 + 1) * 3 := by omega
  have hlt : r.count * 100 < 70 * ((cap0 + 1) * 3) := by omega
  have := (Nat.div_lt_iff_lt_mul hpos).mpr (by omega : r.count * 100 < 70 * ((cap0 + 1) * 3))
  omega

theorem putF_succ (hash : Nat → Nat) (fuel : Nat) (t : Table) (k v : Nat) :
    Table.putF hash (fuel + 1) t k v =
      (if 70 ≤ t.load_percentage then
        Table.reinsert (Table.putF hash fuel) t (Table.alloc ((t.capacity + 1) * 3))
      else some t).bind (fun t' => Table.insertProbe hash t' k v) := rfl

/-- The rehash of `put` under the invariant: reinsertion of every occupied
slot into a fresh table of capacity `(capacity + 1) * 3` succeeds, no
reinsertion call ever takes the rehash branch again (the fold equals the
fold of the gate-free probe phase), and the result preserves the abstract
mapping and the count. -/
theorem reinsert_spec (hash : Nat → Nat) (t : Table) (hInv : t.Inv hash) :
    ∃ r, Table.reinsert (Table.putF hash 1) t (Table.alloc ((t.capacity + 1) * 3)) = some r ∧
      Table.reinsert (Table.insertProbe hash) t (Table.alloc ((t.capacity + 1) * 3)) = some r ∧
      r.Inv hash ∧ r.capacity = (t.capacity + 1) * 3 ∧ r.count = t.count ∧
      (∀ k v, r.mapsTo k v ↔ t.mapsTo k v) := by
  have main : ∀ n, n ≤ t.capacity →
      ∃ r, (List.range n).foldlM
          (fun acc i => if t.meta.getD i 0 &&& 1 = 1 then
            Table.putF hash 1 acc (t.keys.getD i 0) (t.values.getD i 0) else pure acc)
          (Table.alloc ((t.capacity + 1) * 3)) = some r ∧
        (List.range n).foldlM
          (fun acc i => if t.meta.getD i 0 &&& 1 = 1 then
            Table.insertProbe hash acc (t.keys.getD i 0) (t.values.getD i 0) else pure acc)
          (Table.alloc ((t.capacity + 1) * 3)) = some r ∧
        r.Inv hash ∧ r.capacity = (t.capacity + 1) * 3 ∧
        r.count = (List.range n).countP (fun j => t.occB j) ∧
        (∀ k v, r.mapsTo k v ↔ ∃ j, j < n ∧ t.occB j = true ∧
          t.keys.getD j 0 = k ∧ t.values.getD j 0 = v) := by
    intro n
    induction n with
    | zero =>
      intro _
      refine ⟨Table.alloc ((t.capacity + 1) * 3), rfl, rfl,
        alloc_Inv hash _ (by omega), rfl, rfl, ?_⟩
      intro k v
      constructor
      · intro hm; exact absurd hm (mapsTo_alloc _ _ _)
      · rintro ⟨j, hj, _⟩; omega
    | succ n ih =>
      intro hn1
      obtain ⟨r, hF, hG, hInvR, hcapR, hcntR, hmapR⟩ := ih (by omega)
      have hcle : r.count ≤ t.count := by
        have hsub : List.Sublist (List.range n) (List.range t.capacity) :=
          List.range_sublist.mpr (by omega)
        rw [hcntR, hInv.count_eq]
        exact hsub.countP_le _
      by_cases ht : t.occB n = true
      · -- slot n occupied: reinsert its key/value pair
        have hmeta : t.meta.getD n 0 &&& 1 = 1 := (occB_true_iff t n).mp ht
        have hgf : ¬ 70 ≤ r.load_percentage :=
          grown_gate_false r t.capacity (le_trans hcle hInv.count_le) hcapR
        have hlt : r.count < r.capacity := by
          rw [hcapR]
          have := hInv.count_le
          omega
        obtain ⟨r', hpe, hcap', hInv', hmap', hcnt'⟩ :=
          insertProbe_full hash r (t.keys.getD n 0) (t.values.getD n 0) hInvR hlt
        have hput : Table.putF hash 1 r (t.keys.getD n 0) (t.values.getD n 0) =
            Table.insertProbe hash r (t.keys.getD n 0) (t.values.getD n 0) := by
          rw [show (1 : Nat) = 0 + 1 from rfl, putF_succ, if_neg hgf]
          simp
        have hcnt'' : r'.count = r.count + 1 := by
          rcases hcnt' with h | ⟨_, w, hmw⟩
          · exact h
          · exfalso
            obtain ⟨j, hj, ho, hk, _⟩ := (hmapR _ _).mp hmw
            have := hInv.nodup j (List.mem_range.mpr (by omega)) n
              (List.mem_range.mpr (by omega)) ho ht hk
            omega
        refine ⟨r', ?_, ?_, hInv', by rw [hcap', hcapR], ?_, ?_⟩
        · rw [List.range_succ, List.foldlM_append, hF]
          simp only [Option.bind_eq_bind, Option.some_bind, List.foldlM_cons, List.foldlM_nil]
          rw [if_pos hmeta, hput, hpe]
          simp
        · rw [List.range_succ, List.foldlM_append, hG]
          simp only [Option.bind_eq_bind, Option.some_bind, List.foldlM_cons, List.foldlM_nil]
          rw [if_pos hmeta, hpe]
          simp
        · rw [List.range_succ, List.countP_append, hcnt'', hcntR]
          simp [List.countP_cons, ht]
        · intro k v
          constructor
          · intro hm
            rcases (hmap' k v).mp hm with ⟨hk, hv⟩ | ⟨hne, hm2⟩
            · exact ⟨n, by omega, ht, by rw [hk], by rw [hv]⟩
            · obtain ⟨j, hj, ho, hk, hv⟩ := (hmapR k v).mp hm2
              exact ⟨j, by omega, ho, hk, hv⟩
          · rintro ⟨j, hj, ho, hk, hv⟩
            by_cases hjn : j = n
            · subst hjn
              exact (hmap' k v).mpr (Or.inl ⟨hk.symm, hv.symm⟩)
            · have hjlt : j < n := by omega
              apply (hmap' k v).mpr
              refine Or.inr ⟨?_, (hmapR k v).mpr ⟨j, hjlt, ho, hk, hv⟩⟩
              intro hke
              apply hjn
              exact hInv.nodup j (List.mem_range.mpr (by omega)) n
                (List.mem_range.mpr (by omega)) ho ht (by rw [hk, hke])
      · -- slot n free: skipped by the loop
        have hoccf : t.occB n = false := by
          revert ht; cases t.occB n <;> simp
        have hmeta : ¬ t.meta.getD n 0 &&& 1 = 1 := (occB_false_iff t n).mp hoccf
        refine ⟨r, ?_, ?_, hInvR, hcapR, ?_, ?_⟩
        · rw [List.range_succ, List.foldlM_append, hF]
          simp only [Option.bind_eq_bind, Option.some_bind, List.foldlM_cons, List.foldlM_nil]
          rw [if_neg hmeta]
          simp
        · rw [List.range_succ, List.foldlM_append, hG]
          simp only [Option.bind_eq_bind, Option.some_bind, List.foldlM_cons, List.foldlM_nil]
          rw [if_neg hmeta]
          simp
        · rw [List.range_succ, List.countP_append, hcntR]
          simp [List.countP_cons, hoccf]
        · intro k v
          rw [hmapR k v]
          constructor
          · rintro ⟨j, hj, ho, hk, hv⟩
            exact ⟨j, by omega, ho, hk, hv⟩
          · rintro ⟨j, hj, ho, hk, hv⟩
            by_cases hjn : j = n
            · rw [hjn] at ho
              rw [ho] at hoccf
              cases hoccf
            · exact ⟨j, by omega, ho, hk, hv⟩
  obtain ⟨r, hF, hG, hInvR, hcapR, hcntR, hmapR⟩ := main t.capacity (le_refl _)
  refine ⟨r, hF, hG, hInvR, hcapR, ?_, ?_⟩
  · rw [hcntR]
    exact hInv.count_eq.symm
  · intro k v
    rw [hmapR k v]
    exact Iff.rfl

/-- `Table::put` under the invariant: it succeeds, preserves the invariant,
and its only effect on the abstract mapping is to bind `k` to `v`. -/
theorem put_spec (hash : Nat → Nat) (t : Table) (k v : Nat) (hInv : t.Inv hash) :
    ∃ t', Table.put hash t k v = some t' ∧ t'.Inv hash ∧
      ∀ k' v', t'.mapsTo k' v' ↔ ((k' = k ∧ v' = v) ∨ (k' ≠ k ∧ t.mapsTo k' v')) := by
  by_cases hg : 70 ≤ t.load_percentage
  · obtain ⟨r, hF, _hG, hInvR, hcapR, hcntR, hmapR⟩ := reinsert_spec hash t hInv
    have hlt : r.count < r.capacity := by
      rw [hcntR, hcapR]
      have := hInv.count_le
      omega
    obtain ⟨t', hpe, _, hInv', hmap', _⟩ := insertProbe_full hash r k v hInvR hlt
    refine ⟨t', ?_, hInv', ?_⟩
    · show Table.putF hash 2 t k v = some t'
      rw [show (2 : Nat) = 1 + 1 from rfl, putF_succ, if_pos hg, hF]
      simpa using hpe
    · intro k' v'
      rw [hmap' k' v', hmapR k' v']
  · have hlt : t.count < t.capacity := gate_false_count_lt t hInv.cap_pos hg
    obtain ⟨t', hpe, _, hInv', hmap', _⟩ := insertProbe_full hash t k v hInv hlt
    refine ⟨t', ?_, hInv', hmap'⟩
    show Table.putF hash 2 t k v = some t'
    rw [show (2 : Nat) = 1 + 1 from rfl, putF_succ, if_neg hg]
    simpa using hpe

theorem probeIdx_def (hash : Nat → Nat) (t : Table) (k j : Nat) :
    Table.probeIdx hash t k j = (hash k % t.capacity + j) % t.capacity := rfl

theorem get_some_mapsTo (hash : Nat → Nat) (t : Table) (k v : Nat)
    (h : Table.get hash t k = some v) : t.mapsTo k v := by
  delta Table.get at h
  obtain ⟨j, hj, hfj⟩ := List.exists_of_findSome?_eq_some h
  have hjlt := List.mem_range.mp hj
  dsimp only at hfj
  split at hfj
  · next hc =>
    injection hfj with hfj
    exact ⟨Table.probeIdx hash t k j, Nat.mod_lt _ (by omega),
      (occB_true_iff _ _).mpr hc.1, hc.2, hfj⟩
  · cases hfj

theorem get_none_not_mapsTo (hash : Nat → Nat) (t : Table) (k : Nat)
    (hInv : t.Inv hash) (h : Table.get hash t k = none) : ∀ v, ¬ t.mapsTo k v := by
  rintro v ⟨i, hi, ho, hk, hv⟩
  have hs : hash k % t.capacity < t.capacity := Nat.mod_lt _ hInv.cap_pos
  rw [Table.get] at h
  obtain ⟨e0, he0, heq⟩ := probe_surj (hash k % t.capacity) i t.capacity hInv.cap_pos hs hi
  have hnone := List.findSome?_eq_none_iff.mp h e0 (List.mem_range.mpr he0)
  dsimp only at hnone
  rw [probeIdx_def, heq] at hnone
  rw [if_pos ⟨(occB_true_iff _ _).mp ho, hk⟩] at hnone
  cases hnone

/-- `Table::get` returns exactly the stored binding of `k`. -/
theorem get_eq_some_iff (hash : Nat → Nat) (t : Table) (hInv : t.Inv hash) (k v : Nat) :
    Table.get hash t k = some v ↔ t.mapsTo k v := by
  constructor
  · exact get_some_mapsTo hash t k v
  · intro hm
    cases hg : Table.get hash t k with
    | none => exact absurd hm (get_none_not_mapsTo hash t k hInv hg v)
    | some w =>
      obtain ⟨i', hi', ho', hk', hv'⟩ := get_some_mapsTo hash t k w hg
      obtain ⟨i, hi, ho, hk, hv⟩ := hm
      have hii : i' = i := hInv.nodup i' (List.mem_range.mpr hi') i (List.mem_range.mpr hi)
        ho' ho (by rw [hk', hk])
      rw [hii] at hv'
      rw [← hv, hv']

/-- `Table::has` returns `true` exactly when `k` is stored. -/
theorem has_iff (hash : Nat → Nat) (t : Table) (hInv : t.Inv hash) (k : Nat) :
    Table.has hash t k = true ↔ ∃ v, t.mapsTo k v := by
  rw [Table.has, List.any_eq_true]
  constructor
  · rintro ⟨j, hj, hp⟩
    dsimp only at hp
    rw [Bool.and_eq_true, beq_iff_eq, beq_iff_eq] at hp
    exact ⟨t.values.getD (Table.probeIdx hash t k j) 0,
      ⟨Table.probeIdx hash t k j, Nat.mod_lt _ hInv.cap_pos,
        (occB_true_iff _ _).mpr hp.1, hp.2, rfl⟩⟩
  · rintro ⟨v, i, hi, ho, hk, hv⟩
    have hs : hash k % t.capacity < t.capacity := Nat.mod_lt _ hInv.cap_pos
    obtain ⟨e0, he0, heq⟩ := probe_surj (hash k % t.capacity) i t.capacity hInv.cap_pos hs hi
    refine ⟨e0, List.mem_range.mpr he0, ?_⟩
    dsimp only
    rw [probeIdx_def, heq]
    rw [Bool.and_eq_true, beq_iff_eq, beq_iff_eq]
    exact ⟨(occB_true_iff _ _).mp ho, hk⟩

theorem lastVal_nil (k : Nat) : Table.lastVal [] k = none := rfl

theorem lastVal_cons (op : Nat × Nat) (rest : List (Nat × Nat)) (k : Nat) :
    Table.lastVal (op :: rest) k =
      (Table.lastVal rest k).or (if op.1 = k then some op.2 else none) := by
  unfold Table.lastVal
  rw [List.reverse_cons, List.find?_append]
  cases hf : rest.reverse.find? (fun p => p.1 == k) with
  | some q => simp
  | none =>
    by_cases hop : op.1 = k
    · simp [List.find?_cons, hop]
    · simp [List.find?_cons, hop]

/-- A sequence of `put` calls on an invariant-satisfying table succeeds and
produces the table whose bindings are the last-written values. -/
theorem runPuts_spec (hash : Nat → Nat) :
    ∀ (ops : List (Nat × Nat)) (t : Table), t.Inv hash →
    ∃ t', Table.runPuts hash t ops = some t' ∧ t'.Inv hash ∧
      ∀ k v, t'.mapsTo k v ↔
        (Table.lastVal ops k = some v ∨ (Table.lastVal ops k = none ∧ t.mapsTo k v)) := by
  intro ops
  induction ops with
  | nil =>
    intro t hInv
    refine ⟨t, rfl, hInv, ?_⟩
    intro k v
    rw [lastVal_nil]
    simp
  | cons op rest ih =>
    intro t hInv
    obtain ⟨t1, hput, hInv1, hmap1⟩ := put_spec hash t op.1 op.2 hInv
    obtain ⟨t', hrun, hInv', hmap'⟩ := ih t1 hInv1
    refine ⟨t', ?_, hInv', ?_⟩
    · show (op :: rest).foldlM (fun acc p => Table.put hash acc p.1 p.2) t = some t'
      rw [List.foldlM_cons, hput]
      simpa using hrun
    · intro k v
      rw [hmap' k v, lastVal_cons, hmap1 k v]
      cases hrest : Table.lastVal rest k with
      | some w => simp [hrest]
      | none =>
        rw [Option.none_or]
        by_cases hop : op.1 = k
        · rw [if_pos hop]
          constructor
          · rintro (h | ⟨_, (⟨_, hv⟩ | ⟨hne, _⟩)⟩)
            · cases h
            · exact Or.inl (by rw [hv])
            · exact absurd hop.symm hne
          · rintro (h | ⟨h, _⟩)
            · injection h with h
              exact Or.inr ⟨rfl, Or.inl ⟨hop.symm, h.symm⟩⟩
            · cases h
        · rw [if_neg hop]
          constructor
          · rintro (h | ⟨_, (⟨hk, _⟩ | ⟨_, hm⟩)⟩)
            · cases h
            · exact absurd hk (fun hh => hop hh.symm)
            · exact Or.inr ⟨rfl, hm⟩
          · rintro (h | ⟨_, hm⟩)
            · cases h
            · exact Or.inr ⟨rfl, Or.inr ⟨fun hh => hop hh.symm, hm⟩⟩

/-! ## Claim C1: retrievability of every inserted key -/

/-- C1.  For every sequence of `put` operations on a map freshly allocated
with positive capacity, every key whose last `put` wrote `v` is retrievable
afterwards: `get` returns that most recently put value and `has` returns
`true` — including runs in which load-factor rehashes occurred, since the
theorem quantifies over all operation sequences. -/
theorem table_put_get_retrievable (hash : Nat → Nat) (c : Nat) (hc : 0 < c)
    (ops : List (Nat × Nat)) (k v : Nat) (hlast : Table.lastVal ops k = some v) :
    ∃ t, Table.runPuts hash (Table.alloc c) ops = some t ∧
      Table.get hash t k = some v ∧ Table.has hash t k = true := by
  obtain ⟨t, hrun, hInv, hmap⟩ := runPuts_spec hash ops (Table.alloc c) (alloc_Inv hash c hc)
  have hm : t.mapsTo k v := (hmap k v).mpr (Or.inl hlast)
  exact ⟨t, hrun, (get_eq_some_iff hash t hInv k v).mpr hm,
    (has_iff hash t hInv k).mpr ⟨v, hm⟩⟩

/-- Witness for C1: key 5 is put twice (last value 11) with another key in
between; it is retrievable afterwards with the last value. -/
theorem table_put_get_retrievable_witness :
    ((0 : Nat) < 3 ∧ Table.lastVal [(5, 10), (6, 12), (5, 11)] 5 = some 11) ∧
    ∃ t, Table.runPuts (fun x => x) (Table.alloc 3) [(5, 10), (6, 12), (5, 11)] = some t ∧
      Table.get (fun x => x) t 5 = some 11 ∧ Table.has (fun x => x) t 5 = true := by
  refine ⟨⟨by decide, by decide⟩, ?_⟩
  exact table_put_get_retrievable (fun x => x) 3 (by decide)
    [(5, 10), (6, 12), (5, 11)] 5 11 (by decide)

/-! ## Claim C2: the load-factor gate and the rehash -/

/-- C2.  On every `put` call with `count / capacity ≥ 0.70` the gate fires
first: the call reduces to the reinsertion of every occupied slot into a
fresh backing store of capacity `(capacity + 1) * 3` followed by the probe
phase on the replaced storage.  The rehash result keeps the stored count
(the number of distinct keys present), sits strictly below the 70% load
threshold, preserves every binding, and its reinsertion pass never takes
the rehash branch again (it coincides with the fold of the gate-free probe
phase). -/
theorem table_rehash_spec (hash : Nat → Nat) (t : Table) (hInv : t.Inv hash)
    (hgate : 70 ≤ t.load_percentage) :
    (∀ k v, Table.put hash t k v =
      (Table.reinsert (Table.putF hash 1) t (Table.alloc ((t.capacity + 1) * 3))).bind
        (fun r => Table.insertProbe hash r k v)) ∧
    ∃ r, Table.reinsert (Table.putF hash 1) t (Table.alloc ((t.capacity + 1) * 3)) = some r ∧
      r.Inv hash ∧ r.capacity = (t.capacity + 1) * 3 ∧ r.count = t.count ∧
      r.load_percentage < 70 ∧
      (∀ k v, r.mapsTo k v ↔ t.mapsTo k v) ∧
      Table.reinsert (Table.putF hash 1) t (Table.alloc ((t.capacity + 1) * 3)) =
        Table.reinsert (Table.insertProbe hash) t (Table.alloc ((t.capacity + 1) * 3)) := by
  obtain ⟨r, hF, hG, hInvR, hcapR, hcntR, hmapR⟩ := reinsert_spec hash t hInv
  constructor
  · intro k v
    show Table.putF hash 2 t k v = _
    rw [show (2 : Nat) = 1 + 1 from rfl, putF_succ, if_pos hgate]
  · refine ⟨r, hF, hInvR, hcapR, hcntR, ?_, hmapR, by rw [hF, hG]⟩
    have h := grown_gate_false r t.capacity (by rw [hcntR]; exact hInv.count_le) hcapR
    omega

/-- Witness for C2: a full capacity-1 table holding `0 ↦ 5` (load 100%);
the rehash produces a table of capacity 6 with the same single entry,
back under the threshold. -/
theorem table_rehash_spec_witness :
    (70 ≤ Table.load_percentage ⟨[0], [5], [1], 1, 1⟩) ∧
    ∃ r, Table.reinsert (Table.putF (fun x => x) 1) ⟨[0], [5], [1], 1, 1⟩
        (Table.alloc ((1 + 1) * 3)) = some r ∧
      r.capacity = (1 + 1) * 3 ∧ r.count = 1 ∧ r.load_percentage < 70 := by
  have hInv : Table.Inv (fun x => x) ⟨[0], [5], [1], 1, 1⟩ :=
    ⟨by decide, by decide, by decide, by decide, by decide, by decide, by decide, by decide⟩
  have h := table_rehash_spec (fun x => x) ⟨[0], [5], [1], 1, 1⟩ hInv (by decide)
  obtain ⟨r, h1, _, h3, h4, h5, _⟩ := h.2
  exact ⟨by decide, r, h1, h3, h4, h5⟩

/-! ## Claim C5: the capacity-47 scenario -/

/-- C5 counterexample.  In the concrete scenario (capacity 47, keys 0..32
with values `2 * key`), the load-factor gate is below threshold before
every one of the 33 `put` calls — `putF` takes its rehash branch exactly
when the gate holds on the pre-state, so the number of rehashes during the
33 inserts is 0, not 1 as claimed (the gate first reaches 70 only with
`count = 33`, i.e. on a 34th insert). -/
theorem c5_rehash_count_counterexample :
    ((List.range 33).filter fun n =>
      match Table.runPuts (fun x => x) (Table.alloc 47) (c5ops.take n) with
      | some t => decide (70 ≤ t.load_percentage)
      | none => true).length = 0 ∧
    ¬ ((List.range 33).filter fun n =>
      match Table.runPuts (fun x => x) (Table.alloc 47) (c5ops.take n) with
      | some t => decide (70 ≤ t.load_percentage)
      | none => true).length = 1 := by
  constructor
  · decide
  · decide

/-- C5 amended.  After the 33 inserts: `get 17` returns 34, `has 17`
returns `true`, `count = 33`, the capacity is still 47 (no rehash
occurred), and no intermediate state satisfies the rehash gate. -/
theorem c5_run_spec :
    ((Table.runPuts (fun x => x) (Table.alloc 47) c5ops).map fun t =>
      (t.count, t.capacity, Table.get (fun x => x) t 17, Table.has (fun x => x) t 17)) =
      some (33, 47, some 34, true) ∧
    ((List.range 33).filter fun n =>
      match Table.runPuts (fun x => x) (Table.alloc 47) (c5ops.take n) with
      | some t => decide (70 ≤ t.load_percentage)
      | none => true) = [] := by
  constructor
  · decide
  · decide

/-! ## Claim C10: the state right after `Table::alloc` -/

/-- C10 counterexample.  `Table::alloc` never writes the occupancy bytes,
so when the allocator hands back memory whose meta byte is `1` and whose
key cell is `5`, the freshly allocated capacity-1 table reports `has 5 =
true` and `get 5 = some 9` even though `count = 0` — the table is *not*
empty at the public interface for arbitrary allocator memory. -/
theorem table_allocMem_garbage_counterexample :
    (Table.allocMem [5] [9] [1] 1).count = 0 ∧
    Table.has (fun x => x) (Table.allocMem [5] [9] [1] 1) 5 = true ∧
    Table.get (fun x => x) (Table.allocMem [5] [9] [1] 1) 5 = some 9 := by
  refine ⟨rfl, by decide, by decide⟩

/-- C10 amended.  Right after `Table::alloc`, `count = 0` holds for any
allocator memory; and whenever every meta byte handed back has its
occupancy bit clear (as with freshly mapped zero pages), `has` returns
`false` and `get` fails for every key. -/
theorem table_allocMem_empty_of_clear_meta (hash : Nat → Nat)
    (ks vs ms : List Nat) (c : Nat) (hz : ∀ m ∈ ms, m &&& 1 = 0) :
    (Table.allocMem ks vs ms c).count = 0 ∧
    (∀ k, Table.has hash (Table.allocMem ks vs ms c) k = false) ∧
    (∀ k, Table.get hash (Table.allocMem ks vs ms c) k = none) := by
  have hocc : ∀ i, (Table.allocMem ks vs ms c).occB i = false := by
    intro i
    have hand : ms.getD i 0 &&& 1 = 0 := by
      rw [List.getD_eq_getElem?_getD]
      cases hx : ms[i]? with
      | none => rfl
      | some m => exact hz m (List.getElem?_mem hx)
    show (ms.getD i 0 &&& 1 == 1) = false
    rw [hand]
    rfl
  have hprop : ∀ i, ¬ (Table.allocMem ks vs ms c).meta.getD i 0 &&& 1 = 1 :=
    fun i => (occB_false_iff _ i).mp (hocc i)
  refine ⟨rfl, ?_, ?_⟩
  · intro k
    apply List.any_eq_false.mpr
    intro x _
    dsimp only
    intro hp
    rw [Bool.and_eq_true, beq_iff_eq] at hp
    exact hprop _ hp.1
  · intro k
    apply List.findSome?_eq_none_iff.mpr
    intro j _
    dsimp only
    rw [if_neg (fun hc => hprop _ hc.1)]

/-- Witness for C10's amended claim: a capacity-2 table over memory with
cleared occupancy bits is empty at the interface. -/
theorem table_allocMem_empty_witness :
    (∀ m ∈ [0, 2], m &&& 1 = 0) ∧
    (Table.allocMem [7, 8] [1, 2] [0, 2] 2).count = 0 ∧
    Table.has (fun x => x) (Table.allocMem [7, 8] [1, 2] [0, 2] 2) 7 = false ∧
    Table.get (fun x => x) (Table.allocMem [7, 8] [1, 2] [0, 2] 2) 7 = none := by
  have h := table_allocMem_empty_of_clear_meta (fun x => x) [7, 8] [1, 2] [0, 2] 2
    (by decide)
  exact ⟨by decide, h.1, h.2.1 7, h.2.2 7⟩

end Compartment
